import Mathlib

set_option maxHeartbeats 1600000
set_option maxRecDepth 100000
set_option exponentiation.threshold 2000

attribute [local semireducible] Rat.mul Rat.inv Rat.add Rat.sub Rat.ofScientific

/-!
Shallow embedding of the core of Miidoriya/coin-data (src/main.rs):
the aggregation function get_coin_info and the renderer draw_bar_graph.

Rust f64 values are modelled by the type F64 below: finite values are exact
rationals (the binary rounding of IEEE-754 arithmetic is idealized away),
while the special values +inf, -inf and NaN are represented explicitly and
finite results of arithmetic are clamped to the f64 finite range.  Signed
zero is not modelled.  String parsing follows the grammar of Rust's
f64::from_str (optional sign; inf / infinity / nan case-insensitively;
otherwise digits with an optional point and an optional exponent), and
formatting follows Rust's two-decimal formatting and default float display
on terminating decimals.  The println side effects of draw_bar_graph are
modelled by returning the printed line; the unwrap on the re-parse is
modelled by an Option result, where none stands for a panic.
-/

/-- Model of an IEEE-754 binary64 value: an exact rational, or a special value. -/
inductive F64 where
  | finite (q : ℚ)
  | inf
  | negInf
  | nan
deriving DecidableEq

/-- The largest finite f64 magnitude, (2^53 - 1) * 2^971 (the value of f64::MAX),
computed in ℕ and cast so that it evaluates cheaply. -/
def F64.MAXQ : ℚ := (((2 ^ 53 - 1) * 2 ^ 971 : ℕ) : ℚ)

/-- f64::MIN, the seed of the all_time_high fold in get_coin_info. -/
def F64.MIN : F64 := .finite (-F64.MAXQ)

/-- f64::INFINITY, the seed of the all_time_low fold in get_coin_info. -/
def F64.INFINITY : F64 := .inf

/-- Clamp an exact rational into the modelled f64 range (overflow becomes an infinity). -/
def F64.ofRat (q : ℚ) : F64 :=
  if F64.MAXQ < q then .inf else if q < -F64.MAXQ then .negInf else .finite q

/-- IEEE-754 comparison a <= b (false whenever an operand is NaN). -/
def F64.le : F64 → F64 → Bool
  | .nan, _ => false
  | _, .nan => false
  | .negInf, _ => true
  | _, .negInf => false
  | _, .inf => true
  | .inf, _ => false
  | .finite a, .finite b => decide (a ≤ b)

/-- IEEE-754 equality a == b (false whenever an operand is NaN). -/
def F64.beq : F64 → F64 → Bool
  | .nan, _ => false
  | _, .nan => false
  | .inf, .inf => true
  | .negInf, .negInf => true
  | .finite a, .finite b => decide (a = b)
  | _, _ => false

/-- Rust f64::max: if one operand is NaN the other is returned, else the larger. -/
def F64.max (a b : F64) : F64 :=
  match a, b with
  | .nan, b => b
  | a, .nan => a
  | a, b => if F64.le a b then b else a

/-- Rust f64::min: if one operand is NaN the other is returned, else the smaller. -/
def F64.min (a b : F64) : F64 :=
  match a, b with
  | .nan, b => b
  | a, .nan => a
  | a, b => if F64.le a b then a else b

/-- IEEE-754 subtraction on the model (inf - inf = NaN and so on). -/
def F64.sub : F64 → F64 → F64
  | .nan, _ => .nan
  | _, .nan => .nan
  | .inf, .inf => .nan
  | .inf, _ => .inf
  | .negInf, .negInf => .nan
  | .negInf, _ => .negInf
  | .finite _, .inf => .negInf
  | .finite _, .negInf => .inf
  | .finite a, .finite b => F64.ofRat (a - b)

/-- IEEE-754 multiplication on the model (inf * 0 = NaN and so on). -/
def F64.mul : F64 → F64 → F64
  | .nan, _ => .nan
  | _, .nan => .nan
  | .inf, .inf => .inf
  | .inf, .negInf => .negInf
  | .negInf, .inf => .negInf
  | .negInf, .negInf => .inf
  | .inf, .finite b => if b = 0 then .nan else if 0 < b then .inf else .negInf
  | .negInf, .finite b => if b = 0 then .nan else if 0 < b then .negInf else .inf
  | .finite a, .inf => if a = 0 then .nan else if 0 < a then .inf else .negInf
  | .finite a, .negInf => if a = 0 then .nan else if 0 < a then .negInf else .inf
  | .finite a, .finite b => F64.ofRat (a * b)

/-- IEEE-754 division on the model (x / 0 with x nonzero gives an infinity,
0 / 0 = NaN, finite / inf = 0; the sign of zero is not tracked). -/
def F64.div : F64 → F64 → F64
  | .nan, _ => .nan
  | _, .nan => .nan
  | .inf, .inf => .nan
  | .inf, .negInf => .nan
  | .negInf, .inf => .nan
  | .negInf, .negInf => .nan
  | .inf, .finite b => if 0 ≤ b then .inf else .negInf
  | .negInf, .finite b => if 0 ≤ b then .negInf else .inf
  | .finite _, .inf => .finite 0
  | .finite _, .negInf => .finite 0
  | .finite a, .finite b =>
    if b = 0 then (if a = 0 then .nan else if 0 < a then .inf else .negInf)
    else F64.ofRat (a / b)

/-- The ten decimal digit characters. -/
def digitChars : List Char := ['0', '1', '2', '3', '4', '5', '6', '7', '8', '9']

/-- Big-endian decimal digits of a natural number (fuel-indexed helper). -/
def natDigitsAux : ℕ → ℕ → List Char
  | 0, _ => []
  | f + 1, n =>
    if n < 10 then [Nat.digitChar n]
    else natDigitsAux f (n / 10) ++ [Nat.digitChar (n % 10)]

/-- Big-endian decimal digits of a natural number, as printed by Rust. -/
def natDigits (n : ℕ) : List Char := natDigitsAux (n + 1) n

/-- Split a character list into its longest digit prefix and the rest. -/
def takeDigits : List Char → List Char × List Char
  | [] => ([], [])
  | c :: t =>
    if c.isDigit then ((takeDigits t).1.cons c, (takeDigits t).2)
    else ([], c :: t)

/-- Numeric value of a list of digit characters. -/
def digitsToNat (l : List Char) : ℕ := l.foldl (fun a c => 10 * a + (c.toNat - 48)) 0

/-- Build the final parsed value, applying the sign and the f64 range clamp
(overflow parses to an infinity, as in Rust's f64::from_str). -/
def mkF64 (neg : Bool) (q : ℚ) : F64 := F64.ofRat (if neg then -q else q)

/-- Parse the digit part of an exponent, as in f64::from_str. -/
def parseExpDigits (neg : Bool) (mant : ℚ) (eneg : Bool) (t2 : List Char) : Option F64 :=
  if (takeDigits t2).1.isEmpty || !(takeDigits t2).2.isEmpty then none
  else some (mkF64 neg (if eneg then mant / 10 ^ digitsToNat (takeDigits t2).1
                        else mant * 10 ^ digitsToNat (takeDigits t2).1))

/-- Parse the optional sign of an exponent, as in f64::from_str. -/
def parseExpSign (neg : Bool) (mant : ℚ) (t : List Char) : Option F64 :=
  if t.head? = some '+' then parseExpDigits neg mant false t.tail
  else if t.head? = some '-' then parseExpDigits neg mant true t.tail
  else parseExpDigits neg mant false t

/-- Parse an optional exponent suffix after a mantissa, as in f64::from_str. -/
def parseExp (neg : Bool) (mant : ℚ) : List Char → Option F64
  | [] => some (mkF64 neg mant)
  | c :: t => if c = 'e' ∨ c = 'E' then parseExpSign neg mant t else none

/-- Parse a decimal mantissa (digits, optional point, optional exponent),
following the grammar of f64::from_str. -/
def parseDecimal (neg : Bool) (cs : List Char) : Option F64 :=
  match (takeDigits cs).2 with
  | '.' :: r2 =>
    if (takeDigits cs).1.isEmpty && (takeDigits r2).1.isEmpty then none
    else
      parseExp neg ((digitsToNat (takeDigits cs).1 : ℚ) +
        (digitsToNat (takeDigits r2).1 : ℚ) / 10 ^ (takeDigits r2).1.length)
        (takeDigits r2).2
  | _ =>
    if (takeDigits cs).1.isEmpty then none
    else parseExp neg (digitsToNat (takeDigits cs).1 : ℚ) (takeDigits cs).2

/-- The part of f64::from_str after the optional sign has been stripped:
inf / infinity / nan case-insensitively, or a decimal mantissa. -/
def parseAfterSign (neg : Bool) (rest : List Char) : Option F64 :=
  match rest with
  | [] => none
  | _ :: _ =>
    if rest.map Char.toLower = ['i', 'n', 'f'] ∨
        rest.map Char.toLower = ['i', 'n', 'f', 'i', 'n', 'i', 't', 'y'] then
      some (if neg then F64.negInf else F64.inf)
    else if rest.map Char.toLower = ['n', 'a', 'n'] then some F64.nan
    else parseDecimal neg rest

/-- Strip the optional sign and dispatch, as in f64::from_str. -/
def parseChars : List Char → Option F64
  | [] => none
  | c :: t =>
    if c == '+' then parseAfterSign false t
    else if c == '-' then parseAfterSign true t
    else parseAfterSign false (c :: t)

/-- Model of Rust's str::parse::<f64> (f64::from_str): optional sign, then
inf / infinity / nan case-insensitively, or a decimal mantissa with optional
exponent.  Returns none exactly when Rust returns a ParseFloatError. -/
def parseF64 (s : String) : Option F64 := parseChars s.data

/-- Floor of a rational, written as in the Batteries definition. -/
def ratFloor (q : ℚ) : ℤ := Rat.floor q

/-- Round a rational to the nearest integer, ties to even (the rounding used
when Rust formats a float with a fixed number of decimals). -/
def rhe (q : ℚ) : ℤ :=
  let f := ratFloor q
  let r := q - (f : ℚ)
  if r < 1 / 2 then f
  else if 1 / 2 < r then f + 1
  else if f % 2 = 0 then f else f + 1

/-- The two fractional digit characters for formatting with precision 2. -/
def fracDigits2 (k : ℕ) : List Char := [Nat.digitChar (k / 10), Nat.digitChar (k % 10)]

/-- Character list produced by Rust's two-decimal formatting of a finite value. -/
def fmtPrec2F (q : ℚ) : List Char :=
  (if rhe (100 * q) < 0 then ['-'] else []) ++
    natDigits ((rhe (100 * q)).natAbs / 100) ++ '.' ::
    fracDigits2 ((rhe (100 * q)).natAbs % 100)

/-- Model of Rust's two-decimal float formatting (the second format argument
in draw_bar_graph).  Special values print as inf, -inf and NaN. -/
def fmtPrec2 : F64 → String
  | .finite q => String.mk (fmtPrec2F q)
  | .inf => "inf"
  | .negInf => "-inf"
  | .nan => "NaN"

/-- Left-pad a digit list with zeros to a given width. -/
def padZeros (w : ℕ) (l : List Char) : List Char := List.replicate (w - l.length) '0' ++ l

/-- Model of Rust's default float display on a rational with a terminating
decimal expansion (the shortest decimal form, trailing zeros dropped; for a
value whose expansion does not terminate the fallback branch is unreachable
for f64-representable inputs). -/
def displayRat (q : ℚ) : String :=
  let sign := if q < 0 then "-" else ""
  let a := |q|
  match (List.range 1100).find? (fun k => (a * 10 ^ k).den = 1) with
  | some k =>
    let m := (a * 10 ^ k).num.toNat
    if k = 0 then sign ++ String.mk (natDigits m)
    else sign ++ String.mk (natDigits (m / 10 ^ k)) ++ "." ++
      String.mk (padZeros k (natDigits (m % 10 ^ k)))
  | none => sign ++ String.mk (natDigits a.num.toNat) ++ "/" ++ String.mk (natDigits a.den)

/-- Model of Rust's default float display. -/
def displayF64 : F64 → String
  | .finite q => displayRat q
  | .inf => "inf"
  | .negInf => "-inf"
  | .nan => "NaN"

/-- Right-align a string in a field of w characters, as Rust width formatting does. -/
def padLeft (w : ℕ) (s : String) : String :=
  String.mk (List.replicate (w - s.length) ' ') ++ s

/-- Rust str::repeat. -/
def strRepeat (s : String) : ℕ → String
  | 0 => ""
  | n + 1 => s ++ strRepeat s n

/-- i32::MAX. -/
def I32MAX : ℤ := 2 ^ 31 - 1

/-- i32::MIN. -/
def I32MIN : ℤ := -(2 ^ 31)

/-- Truncation of a rational toward zero. -/
def truncQ (q : ℚ) : ℤ := if 0 ≤ q then ratFloor q else -(ratFloor (-q))

/-- Rust's saturating cast from f64 to i32 (NaN goes to 0, the cast truncates
toward zero and saturates at the i32 bounds). -/
def f64toI32 : F64 → ℤ
  | .nan => 0
  | .inf => I32MAX
  | .negInf => I32MIN
  | .finite q => max I32MIN (min I32MAX (truncQ q))

/-- Rust's cast from i32 to usize (negative values wrap modulo 2^64). -/
def usizeCast (i : ℤ) : ℕ := (i % (2 ^ 64 : ℤ)).toNat

/-- The bar length computed in draw_bar_graph: (percentage as i32) / 2,
with Rust's truncating i32 division. -/
def barOf (fp : F64) : ℤ := Int.tdiv (f64toI32 fp) 2

/-- One element of the data array of the /assets/:id/history response
(struct PriceData in src/main.rs). -/
structure PriceData where
  priceUsd : String
  time : ℕ
deriving DecidableEq

/-- The response payload handed to get_coin_info (struct CoinData). -/
structure CoinData where
  data : List PriceData
deriving DecidableEq

/-- The statistics record produced by get_coin_info (struct CoinInfo). -/
structure CoinInfo where
  name : String
  all_time_high : F64
  all_time_low : F64
  current_price : F64
deriving DecidableEq

/-- The successfully parsed prices of a series, in order: the filter_map over
priceUsd.parse::<f64>().ok() that both folds in get_coin_info iterate. -/
def parsedPrices (cd : CoinData) : List F64 :=
  cd.data.filterMap (fun x => parseF64 x.priceUsd)

/-- The all_time_high fold of get_coin_info: fold of f64::max over the
parsed prices, seeded with f64::MIN. -/
def all_time_high (cd : CoinData) : F64 :=
  (parsedPrices cd).foldl F64.max F64.MIN

/-- The all_time_low fold of get_coin_info: fold of f64::min over the
parsed prices, seeded with f64::INFINITY. -/
def all_time_low (cd : CoinData) : F64 :=
  (parsedPrices cd).foldl F64.min F64.INFINITY

/-- Model of get_coin_info from src/main.rs: compute the two folds, then
take the last sample's parsed price as current_price (0.0 for an empty
series); a last sample whose price does not parse is a hard error. -/
def get_coin_info (coin_data : CoinData) (name : String) : Except String CoinInfo :=
  match coin_data.data.getLast? with
  | none =>
    Except.ok ⟨name, all_time_high coin_data, all_time_low coin_data, .finite 0⟩
  | some last_price =>
    match parseF64 last_price.priceUsd with
    | some p => Except.ok ⟨name, all_time_high coin_data, all_time_low coin_data, p⟩
    | none => Except.error "Failed to parse priceUsd"

/-- The three terminal outcomes of draw_bar_graph, each carrying the line it
prints. -/
inductive RenderOutcome where
  | degenerateRange (msg : String)
  | outOfBounds (msg : String)
  | rendered (line : String)
deriving DecidableEq

/-- The raw percentage of draw_bar_graph: (current - lower) * 100.0 / range. -/
def rawPercentage (upper lower current : F64) : F64 :=
  F64.div (F64.mul (F64.sub current lower) (.finite 100)) (F64.sub upper lower)

/-- The rounded percentage of draw_bar_graph: format the raw percentage with
two decimals and parse the text back (none would make the unwrap panic). -/
def roundedPercentage (upper lower current : F64) : Option F64 :=
  parseF64 (fmtPrec2 (rawPercentage upper lower current))

/-- Model of draw_bar_graph from src/main.rs.  The result is the printed
line, tagged by the branch that produced it; none models the panic of the
unwrap on the re-parsed percentage. -/
def draw_bar_graph (upper lower current : F64) (symbol : String) : Option RenderOutcome :=
  if F64.beq (F64.sub upper lower) (.finite 0) then
    some (.degenerateRange "Upper and lower value are the same.")
  else
    match roundedPercentage upper lower current with
    | none => none
    | some fp =>
      if !(F64.le (.finite 0) fp && F64.le fp (.finite 100)) then
        some (.outOfBounds "Current value is not within the specified range.")
      else
        some (.rendered (padLeft 10 (displayF64 fp) ++ "%" ++ "|" ++
          strRepeat "█" (usizeCast (barOf fp)) ++
          strRepeat "░" (usizeCast (50 - barOf fp)) ++ "|" ++ symbol))

/-- Modelled from the spec's words, for comparison with the code's folds:
the maximum of a list of prices (an element maximal with respect to the
IEEE order), none for an empty list. -/
def specMaxParsed : List F64 → Option F64
  | [] => none
  | x :: xs => some (xs.foldl (fun a b => if F64.le a b then b else a) x)

/-- Modelled from the spec's words, for comparison with the code's folds:
the minimum of a list of prices, none for an empty list. -/
def specMinParsed : List F64 → Option F64
  | [] => none
  | x :: xs => some (xs.foldl (fun a b => if F64.le a b then a else b) x)

/-! ### Facts about digit characters and digit lists -/

theorem mem_digitChars_isDigit : ∀ c ∈ digitChars, c.isDigit = true := by decide

theorem mem_digitChars_toLower : ∀ c ∈ digitChars, c.toLower = c := by decide

theorem mem_digitChars_ne :
    ∀ c ∈ digitChars, c ≠ '+' ∧ c ≠ '-' ∧ c ≠ 'i' ∧ c ≠ 'n' ∧ c ≠ '.' := by decide

theorem digitChar_mem (n : ℕ) (h : n < 10) : Nat.digitChar n ∈ digitChars := by
  interval_cases n <;> decide

theorem natDigitsAux_mem (f : ℕ) : ∀ n c, c ∈ natDigitsAux f n → c ∈ digitChars := by
  induction f with
  | zero => intro n c hc; simp [natDigitsAux] at hc
  | succ f ih =>
    intro n c hc
    simp only [natDigitsAux] at hc
    by_cases h : n < 10
    · rw [if_pos h] at hc
      simp only [List.mem_singleton] at hc
      subst hc
      exact digitChar_mem n h
    · rw [if_neg h] at hc
      rcases List.mem_append.1 hc with h1 | h1
      · exact ih _ _ h1
      · simp only [List.mem_singleton] at h1
        subst h1
        exact digitChar_mem _ (Nat.mod_lt _ (by norm_num))

theorem natDigits_mem (n : ℕ) : ∀ c ∈ natDigits n, c ∈ digitChars :=
  fun c hc => natDigitsAux_mem _ _ _ hc

theorem natDigits_ne_nil (n : ℕ) : natDigits n ≠ [] := by
  rw [natDigits]
  simp only [natDigitsAux]
  split <;> simp

theorem fracDigits2_mem (k : ℕ) (h : k < 100) : ∀ c ∈ fracDigits2 k, c ∈ digitChars := by
  intro c hc
  rcases List.mem_pair.1 hc with h1 | h1 <;> subst h1
  · exact digitChar_mem _ (by omega)
  · exact digitChar_mem _ (Nat.mod_lt _ (by norm_num))

theorem takeDigits_append (l r : List Char) (hl : ∀ c ∈ l, c.isDigit = true)
    (hr : ∀ c, r.head? = some c → c.isDigit = false) :
    takeDigits (l ++ r) = (l, r) := by
  induction l with
  | nil =>
    simp only [List.nil_append]
    match r with
    | [] => rfl
    | c :: t =>
      have hc := hr c rfl
      simp [takeDigits, hc]
  | cons c t ih =>
    have hc : c.isDigit = true := hl c (by simp)
    have ht := ih (fun x hx => hl x (by simp [hx]))
    simp [takeDigits, hc, ht]

theorem takeDigits_all (l : List Char) (hl : ∀ c ∈ l, c.isDigit = true) :
    takeDigits l = (l, []) := by
  simpa using takeDigits_append l [] hl (by intro c hc; simp at hc)

/-! ### The two-decimal format always re-parses -/

theorem parseExp_nil_isSome (neg : Bool) (m : ℚ) : (parseExp neg m []).isSome = true := rfl

theorem parseDecimal_digits_isSome (neg : Bool) (D F : List Char)
    (hD : ∀ c ∈ D, c ∈ digitChars) (hDne : D ≠ [])
    (hF : ∀ c ∈ F, c ∈ digitChars) :
    (parseDecimal neg (D ++ '.' :: F)).isSome = true := by
  have h1 : takeDigits (D ++ '.' :: F) = (D, '.' :: F) :=
    takeDigits_append D ('.' :: F) (fun c hc => mem_digitChars_isDigit c (hD c hc))
      (by intro c hc; injection hc with hc; subst hc; decide)
  have h2 : takeDigits F = (F, []) :=
    takeDigits_all F (fun c hc => mem_digitChars_isDigit c (hF c hc))
  have hDe : D.isEmpty = false := by
    cases D with
    | nil => exact absurd rfl hDne
    | cons d t => rfl
  rw [parseDecimal, h1]
  simp [h2, hDe, parseExp]

theorem parseF64_mk_minus (L : List Char) :
    parseF64 (String.mk ('-' :: L)) = parseAfterSign true L := rfl

theorem parseF64_mk_digit (d : Char) (L : List Char) (hd : d ∈ digitChars) :
    parseF64 (String.mk (d :: L)) = parseAfterSign false (d :: L) := by
  have h0 : parseF64 (String.mk (d :: L)) =
      if d == '+' then parseAfterSign false L
      else if d == '-' then parseAfterSign true L
      else parseAfterSign false (d :: L) := rfl
  have h1 : (d == '+') = false := by
    have := (mem_digitChars_ne d hd).1
    simp [this]
  have h2 : (d == '-') = false := by
    have := (mem_digitChars_ne d hd).2.1
    simp [this]
  rw [h0, h1, h2]
  simp

theorem parseAfterSign_digits_isSome (neg : Bool) (D F : List Char)
    (hD : ∀ c ∈ D, c ∈ digitChars) (hDne : D ≠ [])
    (hF : ∀ c ∈ F, c ∈ digitChars) :
    (parseAfterSign neg (D ++ '.' :: F)).isSome = true := by
  obtain ⟨d, D', rfl⟩ := List.exists_cons_of_ne_nil hDne
  have hd : d ∈ digitChars := hD d (by simp)
  have hdl : d.toLower = d := mem_digitChars_toLower d hd
  rw [List.cons_append, parseAfterSign]
  rw [if_neg, if_neg]
  · exact parseDecimal_digits_isSome neg (d :: D') F hD (by simp) hF
  · rw [List.map_cons, hdl]
    intro h
    injection h with h1 _
    exact (mem_digitChars_ne d hd).2.2.2.1 h1
  · rw [List.map_cons, hdl]
    rintro (h | h) <;>
      (injection h with h1 _; exact (mem_digitChars_ne d hd).2.2.1 h1)

theorem parseF64_fmtPrec2_isSome (x : F64) : (parseF64 (fmtPrec2 x)).isSome = true := by
  cases x with
  | inf => rfl
  | negInf => rfl
  | nan => rfl
  | finite q =>
    have hF := fracDigits2_mem ((rhe (100 * q)).natAbs % 100) (Nat.mod_lt _ (by norm_num))
    have hD := natDigits_mem ((rhe (100 * q)).natAbs / 100)
    have hDne := natDigits_ne_nil ((rhe (100 * q)).natAbs / 100)
    rw [fmtPrec2, fmtPrec2F]
    by_cases hneg : rhe (100 * q) < 0
    · rw [if_pos hneg]
      have hlist : (['-'] ++ natDigits ((rhe (100 * q)).natAbs / 100)) ++
          '.' :: fracDigits2 ((rhe (100 * q)).natAbs % 100) =
          '-' :: (natDigits ((rhe (100 * q)).natAbs / 100) ++
            '.' :: fracDigits2 ((rhe (100 * q)).natAbs % 100)) := by simp
      rw [hlist, parseF64_mk_minus]
      exact parseAfterSign_digits_isSome true _ _ hD hDne hF
    · rw [if_neg hneg]
      obtain ⟨d, D', hDD⟩ := List.exists_cons_of_ne_nil hDne
      have hlist : (([] : List Char) ++ natDigits ((rhe (100 * q)).natAbs / 100)) ++
          '.' :: fracDigits2 ((rhe (100 * q)).natAbs % 100) =
          d :: (D' ++ '.' :: fracDigits2 ((rhe (100 * q)).natAbs % 100)) := by
        simp [hDD]
      rw [hlist, parseF64_mk_digit d _ (hD d (by rw [hDD]; simp)), ← List.cons_append, ← hDD]
      exact parseAfterSign_digits_isSome false _ _ hD hDne hF

theorem roundedPercentage_isSome (upper lower current : F64) :
    (roundedPercentage upper lower current).isSome = true :=
  parseF64_fmtPrec2_isSome _

/-! ### Order facts about the F64 model -/

theorem f64_le_refl (a : F64) (h : a ≠ .nan) : F64.le a a = true := by
  cases a <;> simp_all [F64.le]

theorem f64_le_ne_nan (a b : F64) (h : F64.le a b = true) : a ≠ .nan ∧ b ≠ .nan := by
  cases a <;> cases b <;> simp_all [F64.le]

theorem f64_le_total (a b : F64) (ha : a ≠ .nan) (hb : b ≠ .nan) :
    F64.le a b = true ∨ F64.le b a = true := by
  cases a <;> cases b <;> simp_all [F64.le] <;> exact le_total _ _

theorem f64_le_trans (a b c : F64) (h1 : F64.le a b = true) (h2 : F64.le b c = true) :
    F64.le a c = true := by
  cases a <;> cases b <;> cases c <;> simp_all [F64.le] <;> exact le_trans h1 h2

theorem f64_max_eq (a b : F64) (ha : a ≠ .nan) (hb : b ≠ .nan) :
    F64.max a b = if F64.le a b then b else a := by
  cases a <;> cases b <;> simp_all [F64.max]

theorem f64_max_nan_right (a : F64) : F64.max a .nan = a := by
  cases a <;> rfl

theorem f64_max_ne_nan (a b : F64) (ha : a ≠ .nan) : F64.max a b ≠ .nan := by
  by_cases hb : b = .nan
  · subst hb; rw [f64_max_nan_right]; exact ha
  · rw [f64_max_eq a b ha hb]
    split
    · exact hb
    · exact ha

theorem f64_min_eq (a b : F64) (ha : a ≠ .nan) (hb : b ≠ .nan) :
    F64.min a b = if F64.le a b then a else b := by
  cases a <;> cases b <;> simp_all [F64.min]

theorem f64_min_nan_right (a : F64) : F64.min a .nan = a := by
  cases a <;> rfl

theorem f64_min_ne_nan (a b : F64) (ha : a ≠ .nan) : F64.min a b ≠ .nan := by
  by_cases hb : b = .nan
  · subst hb; rw [f64_min_nan_right]; exact ha
  · rw [f64_min_eq a b ha hb]
    split
    · exact ha
    · exact hb

/-! ### Fold lemmas for the all_time_high and all_time_low reductions -/

theorem f64_le_foldl_max (L : List F64) (a seed : F64) (h : F64.le a seed = true) :
    F64.le a (L.foldl F64.max seed) = true := by
  induction L generalizing seed with
  | nil => simpa using h
  | cons y t ih =>
    rw [List.foldl_cons]
    apply ih
    have hs : seed ≠ .nan := (f64_le_ne_nan _ _ h).2
    by_cases hy : y = .nan
    · subst hy; rwa [f64_max_nan_right]
    · rw [f64_max_eq seed y hs hy]
      by_cases hle : F64.le seed y = true
      · rw [if_pos hle]; exact f64_le_trans a seed y h hle
      · rw [if_neg hle]; exact h

theorem f64_mem_le_foldl_max (L : List F64) (seed p : F64) (hp : p ∈ L)
    (hpn : p ≠ .nan) (hs : seed ≠ .nan) :
    F64.le p (L.foldl F64.max seed) = true := by
  induction L generalizing seed with
  | nil => cases hp
  | cons y t ih =>
    rw [List.foldl_cons]
    rcases List.mem_cons.1 hp with rfl | hmem
    · apply f64_le_foldl_max
      rw [f64_max_eq seed p hs hpn]
      by_cases hle : F64.le seed p = true
      · rw [if_pos hle]; exact f64_le_refl p hpn
      · rw [if_neg hle]
        rcases f64_le_total seed p hs hpn with h | h
        · exact absurd h hle
        · exact h
    · exact ih _ hmem (f64_max_ne_nan seed y hs)

theorem f64_foldl_min_le (L : List F64) (a seed : F64) (h : F64.le seed a = true) :
    F64.le (L.foldl F64.min seed) a = true := by
  induction L generalizing seed with
  | nil => simpa using h
  | cons y t ih =>
    rw [List.foldl_cons]
    apply ih
    have hs : seed ≠ .nan := (f64_le_ne_nan _ _ h).1
    by_cases hy : y = .nan
    · subst hy; rwa [f64_min_nan_right]
    · rw [f64_min_eq seed y hs hy]
      by_cases hle : F64.le seed y = true
      · rw [if_pos hle]; exact h
      · rw [if_neg hle]
        rcases f64_le_total seed y hs hy with h2 | h2
        · exact absurd h2 hle
        · exact f64_le_trans y seed a h2 h

theorem f64_foldl_min_mem_le (L : List F64) (seed p : F64) (hp : p ∈ L)
    (hpn : p ≠ .nan) (hs : seed ≠ .nan) :
    F64.le (L.foldl F64.min seed) p = true := by
  induction L generalizing seed with
  | nil => cases hp
  | cons y t ih =>
    rw [List.foldl_cons]
    rcases List.mem_cons.1 hp with rfl | hmem
    · apply f64_foldl_min_le
      rw [f64_min_eq seed p hs hpn]
      by_cases hle : F64.le seed p = true
      · rw [if_pos hle]; exact hle
      · rw [if_neg hle]; exact f64_le_refl p hpn
    · exact ih _ hmem (f64_min_ne_nan seed y hs)

theorem f64_foldl_max_spec (L : List F64) (x : F64) (hx : x ≠ .nan)
    (hL : ∀ c ∈ L, c ≠ .nan) :
    L.foldl F64.max x = L.foldl (fun a b => if F64.le a b then b else a) x := by
  induction L generalizing x with
  | nil => rfl
  | cons y t ih =>
    have hy : y ≠ .nan := hL y (by simp)
    rw [List.foldl_cons, List.foldl_cons, f64_max_eq x y hx hy]
    exact ih _ (by split <;> assumption) (fun c hc => hL c (by simp [hc]))

theorem f64_foldl_min_spec (L : List F64) (x : F64) (hx : x ≠ .nan)
    (hL : ∀ c ∈ L, c ≠ .nan) :
    L.foldl F64.min x = L.foldl (fun a b => if F64.le a b then a else b) x := by
  induction L generalizing x with
  | nil => rfl
  | cons y t ih =>
    have hy : y ≠ .nan := hL y (by simp)
    rw [List.foldl_cons, List.foldl_cons, f64_min_eq x y hx hy]
    exact ih _ (by split <;> assumption) (fun c hc => hL c (by simp [hc]))

/-! ### Every finite value produced by the parser is within the f64 range -/

theorem ofRat_finite (q r : ℚ) (h : F64.ofRat q = .finite r) :
    -F64.MAXQ ≤ r ∧ r ≤ F64.MAXQ := by
  rw [F64.ofRat] at h
  split at h
  · simp at h
  case isFalse h1 =>
    split at h
    · simp at h
    case isFalse h2 =>
      injection h with h3
      subst h3
      exact ⟨le_of_not_lt h2, le_of_not_lt h1⟩

theorem mkF64_finite (neg : Bool) (m q : ℚ) (h : mkF64 neg m = .finite q) :
    -F64.MAXQ ≤ q ∧ q ≤ F64.MAXQ := ofRat_finite _ _ h

theorem parseExpDigits_finite (neg : Bool) (m : ℚ) (eneg : Bool) (t2 : List Char) (q : ℚ)
    (h : parseExpDigits neg m eneg t2 = some (.finite q)) :
    -F64.MAXQ ≤ q ∧ q ≤ F64.MAXQ := by
  rw [parseExpDigits] at h
  split at h
  · simp at h
  · injection h with h2
    exact mkF64_finite _ _ _ h2

theorem parseExpSign_finite (neg : Bool) (m : ℚ) (t : List Char) (q : ℚ)
    (h : parseExpSign neg m t = some (.finite q)) :
    -F64.MAXQ ≤ q ∧ q ≤ F64.MAXQ := by
  rw [parseExpSign] at h
  split at h
  · exact parseExpDigits_finite _ _ _ _ _ h
  · split at h
    · exact parseExpDigits_finite _ _ _ _ _ h
    · exact parseExpDigits_finite _ _ _ _ _ h

theorem parseExp_finite (neg : Bool) (m : ℚ) (cs : List Char) (q : ℚ)
    (h : parseExp neg m cs = some (.finite q)) :
    -F64.MAXQ ≤ q ∧ q ≤ F64.MAXQ := by
  cases cs with
  | nil =>
    rw [parseExp] at h
    injection h with h2
    exact mkF64_finite _ _ _ h2
  | cons c t =>
    rw [parseExp] at h
    split at h
    · exact parseExpSign_finite _ _ _ _ h
    · simp at h

theorem parseDecimal_finite (neg : Bool) (cs : List Char) (q : ℚ)
    (h : parseDecimal neg cs = some (.finite q)) :
    -F64.MAXQ ≤ q ∧ q ≤ F64.MAXQ := by
  rw [parseDecimal] at h
  split at h
  · split at h
    · simp at h
    · exact parseExp_finite _ _ _ _ h
  · split at h
    · simp at h
    · exact parseExp_finite _ _ _ _ h

theorem parseAfterSign_finite (neg : Bool) (rest : List Char) (q : ℚ)
    (h : parseAfterSign neg rest = some (.finite q)) :
    -F64.MAXQ ≤ q ∧ q ≤ F64.MAXQ := by
  cases rest with
  | nil => simp [parseAfterSign] at h
  | cons c t =>
    rw [parseAfterSign] at h
    split at h
    · split at h <;> simp at h
    · split at h
      · simp at h
      · exact parseDecimal_finite _ _ _ h

theorem parseChars_finite (L : List Char) (q : ℚ) (h : parseChars L = some (.finite q)) :
    -F64.MAXQ ≤ q ∧ q ≤ F64.MAXQ := by
  cases L with
  | nil => simp [parseChars] at h
  | cons c t =>
    rw [parseChars] at h
    split at h
    · exact parseAfterSign_finite _ _ _ h
    · split at h
      · exact parseAfterSign_finite _ _ _ h
      · exact parseAfterSign_finite _ _ _ h

theorem parseF64_finite (s : String) (q : ℚ) (h : parseF64 s = some (.finite q)) :
    -F64.MAXQ ≤ q ∧ q ≤ F64.MAXQ := parseChars_finite _ _ h

theorem parsedPrices_finite_range (cd : CoinData) (q : ℚ)
    (h : F64.finite q ∈ parsedPrices cd) : -F64.MAXQ ≤ q ∧ q ≤ F64.MAXQ := by
  rw [parsedPrices, List.mem_filterMap] at h
  obtain ⟨a, _, ha⟩ := h
  exact parseF64_finite _ _ ha

theorem f64_MIN_le (p : F64) (hn : p ≠ .nan) (hni : p ≠ .negInf)
    (hrange : ∀ r : ℚ, p = .finite r → -F64.MAXQ ≤ r) :
    F64.le F64.MIN p = true := by
  cases p with
  | finite r => simpa [F64.MIN, F64.le] using hrange r rfl
  | inf => rfl
  | negInf => exact absurd rfl hni
  | nan => exact absurd rfl hn

/-! ### Bridging the concrete floor to Mathlib's floor, and bar bounds -/

theorem ratFloor_eq_floor (q : ℚ) : ratFloor q = ⌊q⌋ := rfl

theorem truncQ_bounds (q : ℚ) (h0 : 0 ≤ q) (h100 : q ≤ 100) :
    0 ≤ truncQ q ∧ truncQ q ≤ 100 := by
  rw [truncQ, if_pos h0, ratFloor_eq_floor]
  refine ⟨Int.floor_nonneg.2 h0, ?_⟩
  calc ⌊q⌋ ≤ ⌊(100 : ℚ)⌋ := Int.floor_le_floor h100
    _ = 100 := by norm_num

theorem f64toI32_eval (q : ℚ) (h0 : 0 ≤ q) (h100 : q ≤ 100) :
    f64toI32 (.finite q) = truncQ q := by
  obtain ⟨ht0, ht100⟩ := truncQ_bounds q h0 h100
  have hI1 : (I32MIN : ℤ) = -2147483648 := by norm_num [I32MIN]
  have hI2 : (I32MAX : ℤ) = 2147483647 := by norm_num [I32MAX]
  rw [f64toI32, min_eq_right (by omega), max_eq_right (by omega)]

theorem barOf_bounds (fp : F64)
    (h : (F64.le (.finite 0) fp && F64.le fp (.finite 100)) = true) :
    0 ≤ barOf fp ∧ barOf fp ≤ 50 := by
  rw [Bool.and_eq_true] at h
  obtain ⟨h1, h2⟩ := h
  cases fp with
  | nan => simp [F64.le] at h2
  | inf => simp [F64.le] at h2
  | negInf => simp [F64.le] at h1
  | finite q =>
    have hq0 : (0 : ℚ) ≤ q := by simpa [F64.le] using h1
    have hq100 : q ≤ 100 := by simpa [F64.le] using h2
    obtain ⟨ht0, ht100⟩ := truncQ_bounds q hq0 hq100
    rw [barOf, f64toI32_eval q hq0 hq100]
    obtain ⟨n, hn⟩ := Int.eq_ofNat_of_zero_le ht0
    have hn100 : n ≤ 100 := by omega
    rw [hn]
    have htd : Int.tdiv (Int.ofNat n) 2 = Int.ofNat (n / 2) := rfl
    rw [show ((n : ℤ) = Int.ofNat n) from rfl, htd]
    constructor
    · exact Int.ofNat_nonneg _
    · show ((n / 2 : ℕ) : ℤ) ≤ 50
      omega

theorem usizeCast_of_bounds (i : ℤ) (h0 : 0 ≤ i) (h50 : i ≤ 50) :
    usizeCast i = i.toNat := by
  have h64 : ((2 : ℤ) ^ 64) = 18446744073709551616 := by norm_num
  rw [usizeCast, Int.emod_eq_of_lt h0 (by omega)]

/-! ### Lengths of rendered bar segments -/

theorem strRepeat_length (s : String) (n : ℕ) :
    (strRepeat s n).length = n * s.length := by
  induction n with
  | zero => simp [strRepeat]
  | succ n ih =>
    rw [strRepeat, String.length_append, ih]
    ring

deriving instance DecidableEq for Except

/-! ### Helpers for the renderer -/

theorem f64_MAXQ_nonneg : (0 : ℚ) ≤ F64.MAXQ := by
  rw [F64.MAXQ]
  positivity

theorem ofRat_zero : F64.ofRat 0 = .finite 0 := by
  rw [F64.ofRat, if_neg (by linarith [f64_MAXQ_nonneg]),
    if_neg (by linarith [f64_MAXQ_nonneg])]

theorem f64_sub_finite (a b : ℚ) :
    F64.sub (.finite a) (.finite b) = F64.ofRat (a - b) := rfl

theorem draw_bar_graph_not_degenerate (u l c : F64) (s : String)
    (hb : F64.beq (F64.sub u l) (.finite 0) = false)
    (fp : F64) (hfp : roundedPercentage u l c = some fp) :
    draw_bar_graph u l c s =
      if (F64.le (.finite 0) fp && F64.le fp (.finite 100)) = true then
        some (.rendered (padLeft 10 (displayF64 fp) ++ "%" ++ "|" ++
          strRepeat "█" (usizeCast (barOf fp)) ++
          strRepeat "░" (usizeCast (50 - barOf fp)) ++ "|" ++ s))
      else some (.outOfBounds "Current value is not within the specified range.") := by
  rw [draw_bar_graph, hb, hfp]
  by_cases hc : (F64.le (.finite 0) fp && F64.le fp (.finite 100)) = true
  · simp [hc]
  · simp [hc]

/-! ### The claims -/

/-- Claim C1: get_coin_info returns the hard error UnparsablePrice (the message
"Failed to parse priceUsd") exactly when the series is non-empty and its last
element's price string fails to parse; in that case no Statistics record is
returned, and unparsable samples other than the last never cause an error. -/
theorem claim_C1_unparsable_last_hard_error (cd : CoinData) (name : String) :
    (∃ l, cd.data.getLast? = some l ∧ parseF64 l.priceUsd = none) ↔
      get_coin_info cd name = .error "Failed to parse priceUsd" := by
  cases h1 : cd.data.getLast? with
  | none => simp [get_coin_info, h1]
  | some l =>
    cases h2 : parseF64 l.priceUsd with
    | none => simp [get_coin_info, h1, h2]
    | some p => simp [get_coin_info, h1, h2]

/-- Claim C2: when high - low is not 0.0, draw_bar_graph rounds the raw ratio
(current - low) * 100 / (high - low) to two decimals, re-parses the text,
and reports OutOfBounds (with no bar) exactly when the re-parsed rounded
value fails the closed-interval check 0 <= fp <= 100; the witness shows the
raw ratio 99.996 rounding to 100.00 and being accepted. -/
theorem claim_C2_round_then_check (u l c : F64) (s : String)
    (h : F64.beq (F64.sub u l) (.finite 0) = false) :
    ∃ fp, roundedPercentage u l c = some fp ∧
      (draw_bar_graph u l c s =
          some (.outOfBounds "Current value is not within the specified range.") ↔
        (F64.le (.finite 0) fp && F64.le fp (.finite 100)) = false) := by
  obtain ⟨fp, hfp⟩ := Option.isSome_iff_exists.1 (roundedPercentage_isSome u l c)
  refine ⟨fp, hfp, ?_⟩
  rw [draw_bar_graph_not_degenerate u l c s h fp hfp]
  by_cases hc : (F64.le (.finite 0) fp && F64.le fp (.finite 100)) = true
  · rw [if_pos hc]
    simp [hc]
  · rw [if_neg hc]
    simp only [Bool.not_eq_true] at hc
    simp [hc]

/-- Claim C2, witness: 99.996 of the range [0, 100] rounds to "100.00", re-parses
to 100, passes the bound check and renders a full bar. -/
theorem claim_C2_round_then_check_witness :
    F64.beq (F64.sub (.finite 100) (.finite 0)) (.finite 0) = false ∧
      (∃ fp, roundedPercentage (.finite 100) (.finite 0) (.finite (99996 / 1000)) = some fp ∧
        (draw_bar_graph (.finite 100) (.finite 0) (.finite (99996 / 1000)) "x" =
            some (.outOfBounds "Current value is not within the specified range.") ↔
          (F64.le (.finite 0) fp && F64.le fp (.finite 100)) = false)) ∧
      rawPercentage (.finite 100) (.finite 0) (.finite (99996 / 1000)) =
        .finite (99996 / 1000) ∧
      roundedPercentage (.finite 100) (.finite 0) (.finite (99996 / 1000)) =
        some (.finite 100) ∧
      draw_bar_graph (.finite 100) (.finite 0) (.finite (99996 / 1000)) "x" =
        some (.rendered ("       100%|" ++ strRepeat "█" 50 ++ strRepeat "░" 0 ++ "|x")) :=
  ⟨by decide, claim_C2_round_then_check _ _ _ "x" (by decide), by decide, by decide, by decide⟩

/-- Claim C3, counterexample: the price string "-inf" parses successfully (to -inf),
so the maximum of the parsed prices is -inf, yet the code's high fold, seeded
with the finite f64::MIN, returns f64::MIN instead. -/
theorem claim_C3_counterexample :
    parsedPrices ⟨[⟨"-inf", 0⟩]⟩ = [F64.negInf] ∧
      specMaxParsed [F64.negInf] = some F64.negInf ∧
      all_time_high ⟨[⟨"-inf", 0⟩]⟩ = F64.MIN ∧
      F64.MIN ≠ F64.negInf := by
  decide

/-- Claim C3, amended: when every parsed price is neither NaN nor -inf and at
least one price parses, high is the maximum and low is the minimum of
exactly the parsed prices; parse failures are skipped silently. -/
theorem claim_C3_high_low_extremes (cd : CoinData)
    (hnn : ∀ p ∈ parsedPrices cd, p ≠ F64.nan)
    (hni : ∀ p ∈ parsedPrices cd, p ≠ F64.negInf)
    (hne : parsedPrices cd ≠ []) :
    specMaxParsed (parsedPrices cd) = some (all_time_high cd) ∧
      specMinParsed (parsedPrices cd) = some (all_time_low cd) := by
  obtain ⟨x, xs, hx⟩ := List.exists_cons_of_ne_nil hne
  have hxmem : x ∈ parsedPrices cd := by rw [hx]; simp
  have hxn : x ≠ .nan := hnn x hxmem
  have hxs : ∀ c ∈ xs, c ≠ F64.nan := fun c hc => hnn c (by rw [hx]; simp [hc])
  have hMINn : F64.MIN ≠ F64.nan := by simp [F64.MIN]
  constructor
  · have hminx : F64.max F64.MIN x = x := by
      rw [f64_max_eq _ _ hMINn hxn, if_pos]
      apply f64_MIN_le x hxn (hni x hxmem)
      intro r hr
      exact (parsedPrices_finite_range cd r (hr ▸ hxmem)).1
    have h1 : all_time_high cd = xs.foldl F64.max x := by
      rw [all_time_high, hx, List.foldl_cons, hminx]
    rw [hx, specMaxParsed, h1, f64_foldl_max_spec xs x hxn hxs]
  · have hminfx : F64.min F64.INFINITY x = x := by
      cases x with
      | nan => exact absurd rfl hxn
      | inf => rfl
      | negInf => rfl
      | finite q => rfl
    have h2 : all_time_low cd = xs.foldl F64.min x := by
      rw [all_time_low, hx, List.foldl_cons, hminfx]
    rw [hx, specMinParsed, h2, f64_foldl_min_spec xs x hxn hxs]

/-- Claim C3, witness: the three-sample series of the repository's own unit test. -/
theorem claim_C3_high_low_extremes_witness :
    specMaxParsed (parsedPrices ⟨[⟨"13.8", 0⟩, ⟨"13.98", 1⟩, ⟨"13.9", 2⟩]⟩) =
      some (all_time_high ⟨[⟨"13.8", 0⟩, ⟨"13.98", 1⟩, ⟨"13.9", 2⟩]⟩) ∧
      specMinParsed (parsedPrices ⟨[⟨"13.8", 0⟩, ⟨"13.98", 1⟩, ⟨"13.9", 2⟩]⟩) =
      some (all_time_low ⟨[⟨"13.8", 0⟩, ⟨"13.98", 1⟩, ⟨"13.9", 2⟩]⟩) :=
  claim_C3_high_low_extremes _ (by decide) (by decide) (by decide)

/-- Claim C4: whenever the last element's price parses to p, get_coin_info
succeeds and sets current_price to p, the parsed price of the last element,
with the high/low folds unchanged: the relation of p to high and low plays
no role and never causes an error. -/
theorem claim_C4_current_is_last (cd : CoinData) (name : String) (l : PriceData) (p : F64)
    (h1 : cd.data.getLast? = some l) (h2 : parseF64 l.priceUsd = some p) :
    get_coin_info cd name = .ok ⟨name, all_time_high cd, all_time_low cd, p⟩ := by
  simp [get_coin_info, h1, h2]

/-- Claim C4, witness: a series whose last price 1 is below the high 5. -/
theorem claim_C4_current_is_last_witness :
    get_coin_info ⟨[⟨"5", 0⟩, ⟨"1", 1⟩]⟩ "x" =
      .ok ⟨"x", all_time_high ⟨[⟨"5", 0⟩, ⟨"1", 1⟩]⟩,
        all_time_low ⟨[⟨"5", 0⟩, ⟨"1", 1⟩]⟩, .finite 1⟩ :=
  claim_C4_current_is_last _ "x" ⟨"1", 1⟩ (.finite 1) (by decide) (by decide)

/-- Claim C5, counterexample: a non-empty series with zero parseable prices does
not succeed with sentinel statistics; the last price is then unparsable, so
get_coin_info fails with UnparsablePrice. -/
theorem claim_C5_counterexample :
    parsedPrices ⟨[⟨"abc", 0⟩]⟩ = [] ∧
      get_coin_info ⟨[⟨"abc", 0⟩]⟩ "x" = .error "Failed to parse priceUsd" := by
  decide

/-- Claim C5, amended: whenever zero prices parse, the high/low folds give the
sentinels f64::MIN and f64::INFINITY; for the empty series get_coin_info
succeeds with current = 0.0 and those sentinels, while for a non-empty
zero-parse series the last price is unparsable and aggregation fails. -/
theorem claim_C5_zero_parse_sentinels (cd : CoinData) (name : String)
    (h : parsedPrices cd = []) :
    all_time_high cd = F64.MIN ∧ all_time_low cd = F64.INFINITY ∧
      (cd.data = [] → get_coin_info cd name =
        .ok ⟨name, F64.MIN, F64.INFINITY, .finite 0⟩) ∧
      (cd.data ≠ [] → get_coin_info cd name = .error "Failed to parse priceUsd") := by
  have hh : all_time_high cd = F64.MIN := by rw [all_time_high, h]; rfl
  have hl : all_time_low cd = F64.INFINITY := by rw [all_time_low, h]; rfl
  refine ⟨hh, hl, ?_, ?_⟩
  · intro he
    have hnone : cd.data.getLast? = none := by rw [he]; rfl
    simp [get_coin_info, hnone, hh, hl]
  · intro hne
    have hsome : cd.data.getLast?.isSome = true := by
      rw [List.getLast?_isSome]
      exact hne
    obtain ⟨l, hl2⟩ := Option.isSome_iff_exists.1 hsome
    cases h2 : parseF64 l.priceUsd with
    | some p =>
      exfalso
      have hmem : l ∈ cd.data := by
        obtain ⟨hne2, heq⟩ := List.mem_getLast?_eq_getLast (Option.mem_def.2 hl2)
        rw [heq]
        exact List.getLast_mem hne2
      have : p ∈ parsedPrices cd := by
        rw [parsedPrices]
        exact List.mem_filterMap.2 ⟨l, hmem, h2⟩
      rw [h] at this
      cases this
    | none => simp [get_coin_info, hl2, h2]

/-- Claim C5, witness: the single-sample series with the unparsable price "abc". -/
theorem claim_C5_zero_parse_sentinels_witness :
    all_time_high ⟨[⟨"abc", 0⟩]⟩ = F64.MIN ∧
      all_time_low ⟨[⟨"abc", 0⟩]⟩ = F64.INFINITY ∧
      ((⟨[⟨"abc", 0⟩]⟩ : CoinData).data = [] →
        get_coin_info ⟨[⟨"abc", 0⟩]⟩ "x" =
          .ok ⟨"x", F64.MIN, F64.INFINITY, .finite 0⟩) ∧
      ((⟨[⟨"abc", 0⟩]⟩ : CoinData).data ≠ [] →
        get_coin_info ⟨[⟨"abc", 0⟩]⟩ "x" = .error "Failed to parse priceUsd") :=
  claim_C5_zero_parse_sentinels _ "x" (by decide)

/-- Claim C6, counterexample: for high = low = +inf the IEEE equality high == low
holds, yet high - low is NaN, so the NaN-rejecting comparison with 0.0 sends
the renderer down the OutOfBounds branch, not the DegenerateRange branch. -/
theorem claim_C6_counterexample :
    F64.beq F64.inf F64.inf = true ∧
      draw_bar_graph F64.inf F64.inf (.finite 0) "x" =
        some (.outOfBounds "Current value is not within the specified range.") := by
  decide

/-- Claim C6, amended: draw_bar_graph takes the DegenerateRange outcome (the
fixed message, no bar, no division) exactly when high - low == 0.0; for
finite high = low this is always the case, so the bar-drawing branch runs
only when high - low is nonzero. -/
theorem claim_C6_degenerate_iff (u l c : F64) (s : String) :
    (draw_bar_graph u l c s =
        some (.degenerateRange "Upper and lower value are the same.") ↔
      F64.beq (F64.sub u l) (.finite 0) = true) ∧
      (∀ q : ℚ, F64.beq (F64.sub (.finite q) (.finite q)) (.finite 0) = true) := by
  constructor
  · constructor
    · intro h
      by_contra hb
      rw [Bool.not_eq_true] at hb
      obtain ⟨fp, hfp⟩ := Option.isSome_iff_exists.1 (roundedPercentage_isSome u l c)
      rw [draw_bar_graph_not_degenerate u l c s hb fp hfp] at h
      split at h <;> simp at h
    · intro hb
      rw [draw_bar_graph, hb]
      simp
  · intro q
    have hs : F64.sub (.finite q) (.finite q) = .finite 0 := by
      rw [f64_sub_finite, sub_self, ofRat_zero]
    rw [hs]
    simp [F64.beq]

/-- Claim C7, counterexample: for low = 0, high = 100, current = 50 the rendered
line right-aligns the default display "50" of the re-parsed percentage in a
ten-character field; it is not the two-decimal text "50.00" predicted by the
claim. -/
theorem claim_C7_counterexample :
    draw_bar_graph (.finite 100) (.finite 0) (.finite 50) "BTC" =
      some (.rendered ("        50%|" ++ strRepeat "█" 25 ++ strRepeat "░" 25 ++ "|BTC")) ∧
      ("        50%|" ++ strRepeat "█" 25 ++ strRepeat "░" 25 ++ "|BTC") ≠
        ("50.00%" ++ "|" ++ strRepeat "█" 25 ++ strRepeat "░" 25 ++ "|BTC") := by
  decide

/-- Claim C7, amended: every rendered line consists of the re-parsed rounded
percentage in Rust's default float display (trailing zeros dropped)
right-aligned to width ten, then "%", a separator, floor(percentage)/2 solid
blocks, 50 - floor(percentage)/2 light blocks, a separator and the label;
the two block counts always sum to 50 characters. -/
theorem claim_C7_rendered_line (u l c : F64) (s : String) (line : String)
    (h : draw_bar_graph u l c s = some (.rendered line)) :
    ∃ fp, roundedPercentage u l c = some fp ∧
      (F64.le (.finite 0) fp && F64.le fp (.finite 100)) = true ∧
      line = padLeft 10 (displayF64 fp) ++ "%" ++ "|" ++
        strRepeat "█" (usizeCast (barOf fp)) ++
        strRepeat "░" (usizeCast (50 - barOf fp)) ++ "|" ++ s ∧
      usizeCast (barOf fp) + usizeCast (50 - barOf fp) = 50 ∧
      (strRepeat "█" (usizeCast (barOf fp))).length +
        (strRepeat "░" (usizeCast (50 - barOf fp))).length = 50 := by
  by_cases hb : F64.beq (F64.sub u l) (.finite 0) = true
  · rw [draw_bar_graph, hb] at h
    simp at h
  · rw [Bool.not_eq_true] at hb
    obtain ⟨fp, hfp⟩ := Option.isSome_iff_exists.1 (roundedPercentage_isSome u l c)
    rw [draw_bar_graph_not_degenerate u l c s hb fp hfp] at h
    by_cases hc : (F64.le (.finite 0) fp && F64.le fp (.finite 100)) = true
    · rw [if_pos hc] at h
      simp only [Option.some.injEq, RenderOutcome.rendered.injEq] at h
      obtain ⟨hbar0, hbar50⟩ := barOf_bounds fp hc
      have hcast1 : usizeCast (barOf fp) = (barOf fp).toNat :=
        usizeCast_of_bounds _ hbar0 hbar50
      have hcast2 : usizeCast (50 - barOf fp) = (50 - barOf fp).toNat :=
        usizeCast_of_bounds _ (by omega) (by omega)
      refine ⟨fp, hfp, hc, h.symm, ?_, ?_⟩
      · rw [hcast1, hcast2]
        omega
      · rw [strRepeat_length, strRepeat_length, hcast1, hcast2]
        have hb1 : ("█" : String).length = 1 := rfl
        have hb2 : ("░" : String).length = 1 := rfl
        rw [hb1, hb2]
        omega
    · rw [if_neg hc] at h
      simp at h

/-- Claim C7, witness: the 50 percent example renders 25 solid and 25 light blocks
around the right-aligned display "        50". -/
theorem claim_C7_rendered_line_witness :
    ∃ fp, roundedPercentage (.finite 100) (.finite 0) (.finite 50) = some fp ∧
      (F64.le (.finite 0) fp && F64.le fp (.finite 100)) = true ∧
      ("        50%|" ++ strRepeat "█" 25 ++ strRepeat "░" 25 ++ "|BTC") =
        padLeft 10 (displayF64 fp) ++ "%" ++ "|" ++
        strRepeat "█" (usizeCast (barOf fp)) ++
        strRepeat "░" (usizeCast (50 - barOf fp)) ++ "|" ++ "BTC" ∧
      usizeCast (barOf fp) + usizeCast (50 - barOf fp) = 50 ∧
      (strRepeat "█" (usizeCast (barOf fp))).length +
        (strRepeat "░" (usizeCast (50 - barOf fp))).length = 50 :=
  claim_C7_rendered_line (.finite 100) (.finite 0) (.finite 50) "BTC"
    ("        50%|" ++ strRepeat "█" 25 ++ strRepeat "░" 25 ++ "|BTC") (by decide)

/-- Claim C8, counterexample: the price string "NaN" parses successfully, so a
series consisting only of it has at least one parseable price, yet the
produced Statistics has low = +inf above high = f64::MIN. -/
theorem claim_C8_counterexample :
    parsedPrices ⟨[⟨"NaN", 0⟩]⟩ = [F64.nan] ∧
      get_coin_info ⟨[⟨"NaN", 0⟩]⟩ "x" =
        .ok ⟨"x", F64.MIN, F64.INFINITY, F64.nan⟩ ∧
      F64.le (all_time_low ⟨[⟨"NaN", 0⟩]⟩) (all_time_high ⟨[⟨"NaN", 0⟩]⟩) = false := by
  decide

/-- Claim C8, amended: for every series with at least one price that parses to a
non-NaN value, the computed low is at or below the computed high in the IEEE
order. -/
theorem claim_C8_low_le_high (cd : CoinData)
    (h : ∃ p ∈ parsedPrices cd, p ≠ F64.nan) :
    F64.le (all_time_low cd) (all_time_high cd) = true := by
  obtain ⟨p, hmem, hpn⟩ := h
  rw [all_time_high, all_time_low]
  have h1 : F64.le p ((parsedPrices cd).foldl F64.max F64.MIN) = true :=
    f64_mem_le_foldl_max _ _ _ hmem hpn (by simp [F64.MIN])
  have h2 : F64.le ((parsedPrices cd).foldl F64.min F64.INFINITY) p = true :=
    f64_foldl_min_mem_le _ _ _ hmem hpn (by simp [F64.INFINITY])
  exact f64_le_trans _ _ _ h2 h1

/-- Claim C8, witness: the two-sample series with prices 5 and 2. -/
theorem claim_C8_low_le_high_witness :
    F64.le (all_time_low ⟨[⟨"5", 0⟩, ⟨"2", 1⟩]⟩)
      (all_time_high ⟨[⟨"5", 0⟩, ⟨"2", 1⟩]⟩) = true :=
  claim_C8_low_le_high _ ⟨.finite 5, by decide, by decide⟩

/-- Claim C9: both core operations are pure Lean functions of their arguments in
this model, so two calls on identical inputs give identical results; the
model has no clock, randomness or hidden state to consult. -/
theorem claim_C9_deterministic (cd : CoinData) (name : String)
    (u l c : F64) (s : String) :
    get_coin_info cd name = get_coin_info cd name ∧
      draw_bar_graph u l c s = draw_bar_graph u l c s :=
  ⟨rfl, rfl⟩

/-- Claim C10: draw_bar_graph never panics: the re-parse of the two-decimal text
always succeeds (so the unwrap is safe), and in the rendered branch the bar
count floor(percentage)/2 and the padding count 50 - bar both lie in
[0, 50], so the casts to usize are of non-negative values. -/
theorem claim_C10_no_panic (u l c : F64) (s : String) :
    (draw_bar_graph u l c s).isSome = true ∧
      (∀ fp, roundedPercentage u l c = some fp →
        (F64.le (.finite 0) fp && F64.le fp (.finite 100)) = true →
        0 ≤ barOf fp ∧ barOf fp ≤ 50 ∧ 0 ≤ 50 - barOf fp ∧ 50 - barOf fp ≤ 50) := by
  constructor
  · by_cases hb : F64.beq (F64.sub u l) (.finite 0) = true
    · rw [draw_bar_graph, hb]
      simp
    · rw [Bool.not_eq_true] at hb
      obtain ⟨fp, hfp⟩ := Option.isSome_iff_exists.1 (roundedPercentage_isSome u l c)
      rw [draw_bar_graph_not_degenerate u l c s hb fp hfp]
      split <;> simp
  · intro fp _ hc
    obtain ⟨h1, h2⟩ := barOf_bounds fp hc
    exact ⟨h1, h2, by omega, by omega⟩

/-- Claim C10, witness: the 50 percent example, where the bar count is 25. -/
theorem claim_C10_no_panic_witness :
    (draw_bar_graph (.finite 100) (.finite 0) (.finite 50) "x").isSome = true ∧
      (0 ≤ barOf (.finite 50) ∧ barOf (.finite 50) ≤ 50 ∧
        0 ≤ 50 - barOf (.finite 50) ∧ 50 - barOf (.finite 50) ≤ 50) :=
  ⟨(claim_C10_no_panic (.finite 100) (.finite 0) (.finite 50) "x").1,
   (claim_C10_no_panic (.finite 100) (.finite 0) (.finite 50) "x").2 (.finite 50)
     (by decide) (by decide)⟩
